import Mathlib

/-!
Shallow embedding of the return-regime analyzer (`app_returns_analysis.py`).

A price series is a list of `(date, close)` pairs and a return series a list
of `(date, return)` pairs; dates are day numbers (`ℤ`, so that subtracting two
dates gives the `.days` of the pandas `Timedelta`) and prices/returns are exact
rationals.  The pandas invariant "index is unique and strictly increasing" is
carried as the hypothesis `List.Pairwise (fun a b => a.1 < b.1)` where a
theorem needs it.
-/

namespace ReturnsApp

/-- A row of a series: `(date, value)`. -/
abbrev Row : Type := ℤ × ℚ

/-- Last element of a list, `none` on the empty list (pandas `xs[-1]`,
total instead of raising `IndexError`). -/
def last? {α : Type} : List α → Option α
  | [] => none
  | [a] => some a
  | _ :: b :: l => last? (b :: l)

/-- Last element with a default. -/
def lastD {α : Type} (l : List α) (d : α) : α := (last? l).getD d

/-- `returns.index[-1]` — the date of the last row (default `0` on an empty
series, which the source never reaches under its own guards). -/
def lastDate (rs : List Row) : ℤ := lastD (rs.map Prod.fst) 0

/-- `returns[returns <= threshold]` — the rows whose return is at or below the
threshold (inclusive comparison). -/
def eventRows (rs : List Row) (t : ℚ) : List Row :=
  rs.filter (fun p => p.2 ≤ t)

/-- `returns[returns <= threshold].index` — the event dates, in series order. -/
def eventDates (rs : List Row) (t : ℚ) : List ℤ :=
  (eventRows rs t).map Prod.fst

/-- `days_since_event(returns, threshold)`:
`idx = returns[returns <= threshold].index; None if empty else
(returns.index[-1] - idx[-1]).days`. -/
def daysSinceEvent (rs : List Row) (t : ℚ) : Option ℤ :=
  match last? (eventDates rs t) with
  | none => none
  | some d => some (lastDate rs - d)

/-- `returns.shift(-1).loc[d]` — the return of the row immediately following
the row whose date is `d` (`none` when `d` is not a non-final date; with a
unique index the source only evaluates it on non-final event dates). -/
def nextAfter : List Row → ℤ → Option ℚ
  | p :: q :: l, d => if p.1 = d then some q.2 else nextAfter (q :: l) d
  | _, _ => none

/-- `drops = returns[returns <= threshold]; drops = drops[drops.index <
returns.index[-1]]` — event rows strictly before the final date. -/
def qualRows (rs : List Row) (t : ℚ) : List Row :=
  (eventRows rs t).filter (fun p => p.1 < lastDate rs)

/-- Whether the return following row `p` is strictly positive
(`next_returns > 0`; a missing next day counts as `False`, as a pandas `NaN`
does in the comparison). -/
def isPosNext (rs : List Row) (p : Row) : Bool :=
  match nextAfter rs p.1 with
  | some r => decide (0 < r)
  | none => false

/-- `prob_positive_after_drop(returns, threshold)`: `(None, 0)` when there is
no qualifying drop, else `((next_returns > 0).mean(), len(drops))`. -/
def probPositiveAfterDrop (rs : List Row) (t : ℚ) : Option ℚ × ℕ :=
  let drops := qualRows rs t
  if drops.length = 0 then (none, 0)
  else (some ((((drops.filter (isPosNext rs)).length : ℚ)) / (drops.length : ℚ)),
        drops.length)

/-- `close.pct_change().dropna()` — simple day-over-day returns; the first
price row yields the `NaN` that `dropna` removes, so the result starts at the
second price date. -/
def toReturns : List (ℤ × ℚ) → List Row
  | p :: q :: l => (q.1, q.2 / p.2 - 1) :: toReturns (q :: l)
  | _ => []

/-- `returns.mean()`. -/
def mean (rs : List Row) : ℚ := (rs.map Prod.snd).sum / (rs.length : ℚ)

/-- The sample variance behind `returns.std()` (pandas default `ddof=1`). -/
def sampleVar (rs : List Row) : ℚ :=
  (rs.map (fun p => (p.2 - mean rs) ^ 2)).sum / ((rs.length : ℚ) - 1)

/-- `returns.std()` — sample standard deviation, the square root of
`sampleVar` taken in `ℝ`. -/
noncomputable def sigma (rs : List Row) : ℝ := Real.sqrt ((sampleVar rs : ℚ) : ℝ)

/-- `th_mod = mu - sigma`. -/
noncomputable def thMod (rs : List Row) : ℝ := ((mean rs : ℚ) : ℝ) - sigma rs

/-- `th_fuerte = mu - 2 * sigma`. -/
noncomputable def thStrong (rs : List Row) : ℝ := ((mean rs : ℚ) : ℝ) - 2 * sigma rs

/-- `th_muy_fuerte = mu - 3 * sigma`. -/
noncomputable def thVeryStrong (rs : List Row) : ℝ := ((mean rs : ℚ) : ℝ) - 3 * sigma rs

/-- The event set at a real-valued threshold (the set of dates whose return is
at or below it), for relating event sets across the three σ-scaled tiers. -/
def eventDatesR (rs : List Row) (t : ℝ) : Set ℤ :=
  {d : ℤ | ∃ r : ℚ, (d, r) ∈ rs ∧ (r : ℝ) ≤ t}

/-- The qualitative regime labels of the final conclusion block. -/
inductive RegimeLabel : Type
  | stable
  | elevated
  | high_risk
deriving DecidableEq

/-- `d is not None and d < 30` — whether a recency value is defined and below
30 days. -/
def recentLt30 : Option ℤ → Bool
  | some d => decide (d < 30)
  | none => false

/-- The conclusion block: `if d_muy_fuerte is not None and d_muy_fuerte < 30:
high risk; elif d_fuerte is not None and d_fuerte < 30: elevated; else:
stable`. -/
def classifyRegime (dvs ds : Option ℤ) : RegimeLabel :=
  if recentLt30 dvs then RegimeLabel.high_risk
  else if recentLt30 ds then RegimeLabel.elevated
  else RegimeLabel.stable

/-- `returns[returns <= threshold]` at one of the real-valued σ-scaled
thresholds (floats in the source; exact reals here). -/
noncomputable def eventRowsR (rs : List Row) (t : ℝ) : List Row :=
  rs.filter (fun p => decide ((p.2 : ℝ) ≤ t))

/-- `days_since_event` applied at a real-valued threshold, as the main block
does with `th_mod`, `th_fuerte`, `th_muy_fuerte`. -/
noncomputable def daysSinceEventR (rs : List Row) (t : ℝ) : Option ℤ :=
  match last? ((eventRowsR rs t).map Prod.fst) with
  | none => none
  | some d => some (lastDate rs - d)

/-- `prob_positive_after_drop` applied at a real-valued threshold. -/
noncomputable def probPositiveAfterDropR (rs : List Row) (t : ℝ) : Option ℚ × ℕ :=
  let drops := (eventRowsR rs t).filter (fun p => p.1 < lastDate rs)
  if drops.length = 0 then (none, 0)
  else (some ((((drops.filter (isPosNext rs)).length : ℚ)) / (drops.length : ℚ)),
        drops.length)

/-- The statistics the main block computes and renders for one run. -/
structure AnalysisResult : Type where
  mu : ℚ
  sd : ℝ
  tMod : ℝ
  tStrong : ℝ
  tVeryStrong : ℝ
  dMod : Option ℤ
  dStrong : Option ℤ
  dVeryStrong : Option ℤ
  pMod : Option ℚ
  nMod : ℕ
  pStrong : Option ℚ
  nStrong : ℕ
  pVeryStrong : Option ℚ
  nVeryStrong : ℕ
  regime : RegimeLabel

/-- The failure modes of a run.  `dataUnavailable` is the script's
`st.error(...); st.stop()` when the downloaded frame is empty or has no
`Close` column; `indexError` is the unhandled `IndexError` that
`returns.index[-1]` raises inside `prob_positive_after_drop` when the return
series is empty (a one-row price frame); `insufficientData` is declared so
the spec's claimed error can be named, the script never raises it. -/
inductive AnalysisError : Type
  | dataUnavailable
  | indexError
  | insufficientData (minRequired actual : ℕ)
deriving DecidableEq

/-- The main block: stop with the data error when the frame is empty,
otherwise derive returns and compute every statistic of tab 1 and the
conclusion.  There is no minimum-count validation anywhere; the only other
way a run ends without results is the `IndexError` from `returns.index[-1]`
in the first `prob_positive_after_drop` call (line 79 reaching line 36) when
the return series is empty, i.e. when the price frame has a single row. -/
noncomputable def analyze (prices : List (ℤ × ℚ)) : Except AnalysisError AnalysisResult :=
  if prices.isEmpty then Except.error AnalysisError.dataUnavailable
  else
    let returns := toReturns prices
    let t1 := thMod returns
    let t2 := thStrong returns
    let t3 := thVeryStrong returns
    let d1 := daysSinceEventR returns t1
    let d2 := daysSinceEventR returns t2
    let d3 := daysSinceEventR returns t3
    if returns.isEmpty then Except.error AnalysisError.indexError
    else
    let pn1 := probPositiveAfterDropR returns t1
    let pn2 := probPositiveAfterDropR returns t2
    let pn3 := probPositiveAfterDropR returns t3
    Except.ok
      { mu := mean returns
        sd := sigma returns
        tMod := t1
        tStrong := t2
        tVeryStrong := t3
        dMod := d1
        dStrong := d2
        dVeryStrong := d3
        pMod := pn1.1
        nMod := pn1.2
        pStrong := pn2.1
        nStrong := pn2.2
        pVeryStrong := pn3.1
        nVeryStrong := pn3.2
        regime := classifyRegime d3 d2 }

/-- Whether a run of the main block produced an `AnalysisResult` (rather than
stopping with an error). -/
noncomputable def analysisProduced (prices : List (ℤ × ℚ)) : Bool :=
  match analyze prices with
  | Except.ok _ => true
  | Except.error _ => false

lemma last?_eq_none_iff {α : Type} {l : List α} : last? l = none ↔ l = [] := by
  induction l with
  | nil => simp [last?]
  | cons a l ih =>
    cases l with
    | nil => simp [last?]
    | cons b m => simpa [last?] using ih

lemma last?_mem {α : Type} {l : List α} {a : α} (h : last? l = some a) : a ∈ l := by
  induction l with
  | nil => simp [last?] at h
  | cons b l ih =>
    cases l with
    | nil =>
      simp [last?] at h
      simp [h]
    | cons c m =>
      simp only [last?] at h
      exact List.mem_cons_of_mem _ (ih h)

lemma last?_of_ne_nil {α : Type} {l : List α} (h : l ≠ []) : ∃ a, last? l = some a := by
  cases hl : last? l with
  | none => exact absurd (last?_eq_none_iff.mp hl) h
  | some a => exact ⟨a, rfl⟩

lemma le_last_of_pairwise {l : List ℤ} (hs : l.Pairwise (· < ·)) {a b : ℤ}
    (ha : a ∈ l) (hb : last? l = some b) : a ≤ b := by
  induction l with
  | nil => simp at ha
  | cons c m ih =>
    cases m with
    | nil =>
      simp [last?] at hb
      simp at ha
      simp [ha, hb]
    | cons d m' =>
      simp only [last?] at hb
      rcases List.mem_cons.mp ha with h | h
      · subst h
        have hbm : b ∈ d :: m' := last?_mem hb
        exact le_of_lt ((List.pairwise_cons.mp hs).1 b hbm)
      · exact ih (List.pairwise_cons.mp hs).2 h hb

lemma sum_eq_length_mul {l : List ℚ} {c : ℚ} (h : ∀ x ∈ l, x = c) :
    l.sum = (l.length : ℚ) * c := by
  induction l with
  | nil => simp
  | cons a m ih =>
    have ha : a = c := h a (List.mem_cons_self a m)
    have hm : m.sum = (m.length : ℚ) * c := ih fun x hx => h x (List.mem_cons_of_mem _ hx)
    simp [List.sum_cons, ha, hm]
    ring

lemma eventDates_pairwise {rs : List Row} {t : ℚ}
    (hs : rs.Pairwise (fun a b => a.1 < b.1)) :
    (eventDates rs t).Pairwise (· < ·) := by
  unfold eventDates eventRows
  exact List.pairwise_map.mpr (hs.filter _)

lemma mem_eventDates {rs : List Row} {t : ℚ} {d : ℤ} :
    d ∈ eventDates rs t ↔ ∃ r : ℚ, (d, r) ∈ rs ∧ r ≤ t := by
  unfold eventDates eventRows
  constructor
  · intro h
    rcases List.mem_map.mp h with ⟨p, hp, hfst⟩
    rcases List.mem_filter.mp hp with ⟨hmem, hle⟩
    exact ⟨p.2, by simpa [← hfst] using hmem, by simpa using hle⟩
  · rintro ⟨r, hmem, hle⟩
    exact List.mem_map.mpr ⟨(d, r), List.mem_filter.mpr ⟨hmem, by simpa using hle⟩, rfl⟩

lemma date_le_lastDate {rs : List Row} (hs : rs.Pairwise (fun a b => a.1 < b.1))
    {p : Row} (hp : p ∈ rs) : p.1 ≤ lastDate rs := by
  have hne : rs.map Prod.fst ≠ [] := by
    cases rs with
    | nil => simp at hp
    | cons a l => simp
  rcases last?_of_ne_nil hne with ⟨b, hb⟩
  have hmem : p.1 ∈ rs.map Prod.fst := List.mem_map.mpr ⟨p, hp, rfl⟩
  have hpw : (rs.map Prod.fst).Pairwise (· < ·) := List.pairwise_map.mpr hs
  have := le_last_of_pairwise hpw hmem hb
  simpa [lastDate, lastD, hb] using this

lemma eventDate_le_last_event {rs : List Row} {t : ℚ}
    (hs : rs.Pairwise (fun a b => a.1 < b.1)) {d e : ℤ}
    (hd : d ∈ eventDates rs t) (he : last? (eventDates rs t) = some e) : d ≤ e :=
  le_last_of_pairwise (eventDates_pairwise hs) hd he

lemma daysSinceEvent_of_last {rs : List Row} {t : ℚ} {e : ℤ}
    (he : last? (eventDates rs t) = some e) :
    daysSinceEvent rs t = some (lastDate rs - e) := by
  unfold daysSinceEvent
  rw [he]

lemma daysSinceEvent_of_no_event {rs : List Row} {t : ℚ}
    (h : eventRows rs t = []) : daysSinceEvent rs t = none := by
  unfold daysSinceEvent eventDates
  rw [h]
  rfl

/-- C1: the regime label is a pure, first-match-wins function of the two
recency values: a defined very-strong recency below 30 gives `high_risk`
regardless of the strong recency; otherwise a defined strong recency below 30
gives `elevated`; otherwise the label is `stable`.  An undefined recency never
satisfies the `< 30` test, so a series with no event in either tier is
`stable`, and an undefined very-strong recency alone never yields
`high_risk`. -/
theorem regime_classification_rule (rs : List Row) (t2 t3 : ℚ) :
    (∀ d : ℤ, daysSinceEvent rs t3 = some d → d < 30 →
      classifyRegime (daysSinceEvent rs t3) (daysSinceEvent rs t2) = RegimeLabel.high_risk)
    ∧ (recentLt30 (daysSinceEvent rs t3) = false → ∀ d : ℤ,
        daysSinceEvent rs t2 = some d → d < 30 →
        classifyRegime (daysSinceEvent rs t3) (daysSinceEvent rs t2) = RegimeLabel.elevated)
    ∧ (recentLt30 (daysSinceEvent rs t3) = false → recentLt30 (daysSinceEvent rs t2) = false →
        classifyRegime (daysSinceEvent rs t3) (daysSinceEvent rs t2) = RegimeLabel.stable)
    ∧ (eventRows rs t3 = [] → eventRows rs t2 = [] →
        classifyRegime (daysSinceEvent rs t3) (daysSinceEvent rs t2) = RegimeLabel.stable)
    ∧ (daysSinceEvent rs t3 = none →
        classifyRegime (daysSinceEvent rs t3) (daysSinceEvent rs t2) ≠ RegimeLabel.high_risk) := by
  refine ⟨?_, ?_, ?_, ?_, ?_⟩
  · intro d hd hlt
    unfold classifyRegime
    rw [hd]
    simp [recentLt30, hlt]
  · intro h3 d hd hlt
    unfold classifyRegime
    rw [h3, hd]
    simp [recentLt30, hlt]
  · intro h3 h2
    unfold classifyRegime
    rw [h3, h2]
    simp
  · intro h3 h2
    unfold classifyRegime
    rw [daysSinceEvent_of_no_event h3, daysSinceEvent_of_no_event h2]
    simp [recentLt30]
  · intro h3
    unfold classifyRegime
    rw [h3]
    cases hr : recentLt30 (daysSinceEvent rs t2) <;> simp [recentLt30, hr]

theorem regime_classification_rule_w :
    classifyRegime (daysSinceEvent [((0 : ℤ), (-1 : ℚ)), (10, 0)] (-1))
        (daysSinceEvent [((0 : ℤ), (-1 : ℚ)), (10, 0)] 2) = RegimeLabel.high_risk :=
  (regime_classification_rule [((0 : ℤ), (-1 : ℚ)), (10, 0)] 2 (-1)).1 10 (by decide)
    (by decide)

/-- A concrete five-point price series; its return series has four
observations, fewer than any configured minimum of 50 or 100. -/
def shortPrices : List (ℤ × ℚ) := [(0, 1), (1, 2), (2, 1), (3, 2), (4, 1)]

/-- C2 counterexample: on a price series whose derived return series has only
4 observations (< 50), the script still produces a full `AnalysisResult`; no
`InsufficientDataError` is raised. -/
theorem analyze_short_series_produces_result :
    (toReturns shortPrices).length = 4 ∧ (toReturns shortPrices).length < 50
      ∧ analysisProduced shortPrices = true :=
  ⟨by decide, by decide, rfl⟩

/-- C2 (amended): the main block performs no minimum-count validation.  It
stops with the data-unavailable error exactly when the downloaded price data
is empty; on a one-row price series (whose derived return series is empty) it
dies with the unhandled `IndexError` from `returns.index[-1]`; and on every
price series with at least one derived return — however short, in particular
with far fewer than 50 returns — it produces a full `AnalysisResult`. -/
theorem analyze_fails_only_without_returns (ps : List (ℤ × ℚ)) :
    (ps = [] → analyze ps = Except.error AnalysisError.dataUnavailable)
    ∧ (ps ≠ [] → toReturns ps = [] → analyze ps = Except.error AnalysisError.indexError)
    ∧ (toReturns ps ≠ [] → analysisProduced ps = true) := by
  refine ⟨?_, ?_, ?_⟩
  · intro h
    subst h
    rfl
  · intro hne hret
    cases ps with
    | nil => exact absurd rfl hne
    | cons p l =>
      unfold analyze
      simp [hret]
  · intro hret
    cases ps with
    | nil => exact absurd rfl hret
    | cons p l =>
      have h2 : (toReturns (p :: l)).isEmpty = false := by
        cases h : (toReturns (p :: l)).isEmpty with
        | false => rfl
        | true => exact absurd (List.isEmpty_iff.mp h) hret
      unfold analysisProduced analyze
      simp [h2]

theorem analyze_fails_only_without_returns_w :
    analyze [((0 : ℤ), (1 : ℚ))] = Except.error AnalysisError.indexError
    ∧ analysisProduced [((0 : ℤ), (1 : ℚ)), (1, 2)] = true :=
  ⟨(analyze_fails_only_without_returns [((0 : ℤ), (1 : ℚ))]).2.1 (by decide) (by decide),
    (analyze_fails_only_without_returns [((0 : ℤ), (1 : ℚ)), (1, 2)]).2.2 (by decide)⟩

lemma nextAfter_get {rs : List Row} (hs : rs.Pairwise (fun a b => a.1 < b.1)) :
    ∀ i : ℕ, ∀ a b : Row, rs.get? i = some a → rs.get? (i + 1) = some b →
      nextAfter rs a.1 = some b.2 := by
  induction rs with
  | nil => intro i a b ha; simp at ha
  | cons p l ih =>
    intro i a b ha hb
    cases l with
    | nil =>
      cases i with
      | zero => simp at hb
      | succ j => simp at ha
    | cons q m =>
      cases i with
      | zero =>
        simp at ha hb
        subst ha
        simp [nextAfter, hb]
      | succ j =>
        have ha' : (q :: m).get? j = some a := by simpa using ha
        have hb' : (q :: m).get? (j + 1) = some b := by simpa using hb
        have hmem : a ∈ q :: m := List.get?_mem ha'
        have hlt : p.1 < a.1 := (List.pairwise_cons.mp hs).1 a hmem
        have hne : ¬ p.1 = a.1 := ne_of_lt hlt
        rw [show nextAfter (p :: q :: m) a.1 = nextAfter (q :: m) a.1 by
          simp [nextAfter, hne]]
        exact ih (List.pairwise_cons.mp hs).2 j a b ha' hb'

/-- C3: the rebound analysis counts exactly the events (return at or below the
threshold) whose date is strictly before the series' final date; with at
least one such event it reports the fraction of them whose immediately
following return is strictly positive, and with none it reports `none`
(distinguishable from a probability of zero) together with count 0.  In a
series with a strictly increasing date index, "immediately following" is the
return of the next row of the series. -/
theorem probPositiveAfterDrop_spec (rs : List Row) (t : ℚ) :
    ((probPositiveAfterDrop rs t).2
        = rs.countP (fun p => decide (p.2 ≤ t ∧ p.1 < lastDate rs)))
    ∧ ((probPositiveAfterDrop rs t).2 = 0 → (probPositiveAfterDrop rs t).1 = none)
    ∧ ((probPositiveAfterDrop rs t).2 ≠ 0 → (probPositiveAfterDrop rs t).1
        = some ((((qualRows rs t).filter (isPosNext rs)).length : ℚ)
            / ((qualRows rs t).length : ℚ)))
    ∧ (rs.Pairwise (fun a b => a.1 < b.1) → ∀ i : ℕ, ∀ a b : Row,
        rs.get? i = some a → rs.get? (i + 1) = some b →
          nextAfter rs a.1 = some b.2) := by
  have hqual : qualRows rs t
      = rs.filter (fun p => decide (p.2 ≤ t ∧ p.1 < lastDate rs)) := by
    unfold qualRows eventRows
    rw [List.filter_filter]
    refine List.filter_congr ?_
    intro p _
    rw [Bool.decide_and]
    rw [Bool.and_comm]
  refine ⟨?_, ?_, ?_, ?_⟩
  · rw [List.countP_eq_length_filter, ← hqual]
    unfold probPositiveAfterDrop
    by_cases h : (qualRows rs t).length = 0 <;> simp [h]
  · intro h
    unfold probPositiveAfterDrop at h ⊢
    by_cases h0 : (qualRows rs t).length = 0
    · simp [h0]
    · simp [h0] at h
  · intro h
    unfold probPositiveAfterDrop at h ⊢
    by_cases h0 : (qualRows rs t).length = 0
    · simp [h0] at h
    · simp [h0]
  · exact fun hs => nextAfter_get hs

theorem probPositiveAfterDrop_spec_w :
    nextAfter [((0 : ℤ), (-1 : ℚ)), (1, 2), (2, -1)] 0 = some 2 :=
  (probPositiveAfterDrop_spec [((0 : ℤ), (-1 : ℚ)), (1, 2), (2, -1)] 0).2.2.2
    (by decide) 0 (0, -1) (1, 2) (by decide) (by decide)

/-- C10: whenever the rebound probability is defined (positive sample count),
it lies in `[0, 1]`; it is 0 exactly when no qualifying event is followed by a
strictly positive return, and 1 when every qualifying event is. -/
theorem reboundProb_bounds (rs : List Row) (t : ℚ)
    (h : (probPositiveAfterDrop rs t).2 ≠ 0) :
    ∃ p : ℚ, (probPositiveAfterDrop rs t).1 = some p ∧ 0 ≤ p ∧ p ≤ 1
      ∧ (((qualRows rs t).filter (isPosNext rs)).length = 0 → p = 0)
      ∧ (((qualRows rs t).filter (isPosNext rs)).length = (qualRows rs t).length
          → p = 1) := by
  have h0 : (qualRows rs t).length ≠ 0 := by
    intro h0
    apply h
    unfold probPositiveAfterDrop
    simp [h0]
  have hpos : (0 : ℚ) < ((qualRows rs t).length : ℚ) := by
    exact_mod_cast Nat.pos_of_ne_zero h0
  have hle : ((qualRows rs t).filter (isPosNext rs)).length ≤ (qualRows rs t).length :=
    List.length_filter_le _ _
  refine ⟨(((qualRows rs t).filter (isPosNext rs)).length : ℚ)
      / ((qualRows rs t).length : ℚ), ?_, ?_, ?_, ?_, ?_⟩
  · unfold probPositiveAfterDrop
    simp [h0]
  · positivity
  · rw [div_le_one hpos]
    exact_mod_cast hle
  · intro hz
    rw [hz]
    simp
  · intro hall
    rw [hall]
    rw [div_self (ne_of_gt hpos)]

theorem reboundProb_bounds_w :
    ∃ p : ℚ, (probPositiveAfterDrop [((0 : ℤ), (-1 : ℚ)), (1, 2)] (-1)).1 = some p
      ∧ 0 ≤ p ∧ p ≤ 1
      ∧ (((qualRows [((0 : ℤ), (-1 : ℚ)), (1, 2)] (-1)).filter
            (isPosNext [((0 : ℤ), (-1 : ℚ)), (1, 2)])).length = 0 → p = 0)
      ∧ (((qualRows [((0 : ℤ), (-1 : ℚ)), (1, 2)] (-1)).filter
            (isPosNext [((0 : ℤ), (-1 : ℚ)), (1, 2)])).length
          = (qualRows [((0 : ℤ), (-1 : ℚ)), (1, 2)] (-1)).length → p = 1) :=
  reboundProb_bounds [((0 : ℤ), (-1 : ℚ)), (1, 2)] (-1) (by decide)

/-- C4: the recency analysis returns `none` ("never") exactly when the event
set at the threshold is empty; otherwise it returns the difference between
the series' last date and the most recent event date (which need not be the
final date itself), and on a strictly increasing date index that difference
is non-negative. -/
theorem daysSinceEvent_spec (rs : List Row) (t : ℚ) :
    (daysSinceEvent rs t = none ↔ eventDates rs t = [])
    ∧ (∀ e : ℤ, last? (eventDates rs t) = some e →
        daysSinceEvent rs t = some (lastDate rs - e))
    ∧ (rs.Pairwise (fun a b => a.1 < b.1) →
        ∀ d : ℤ, daysSinceEvent rs t = some d → 0 ≤ d) := by
  refine ⟨?_, ?_, ?_⟩
  · unfold daysSinceEvent
    cases hl : last? (eventDates rs t) with
    | none => simp [last?_eq_none_iff.mp hl]
    | some e =>
      simp only [reduceCtorEq, false_iff]
      intro hnil
      rw [hnil] at hl
      simp [last?] at hl
  · intro e he
    exact daysSinceEvent_of_last he
  · intro hs d hd
    unfold daysSinceEvent at hd
    cases hl : last? (eventDates rs t) with
    | none => rw [hl] at hd; simp at hd
    | some e =>
      rw [hl] at hd
      simp only [Option.some.injEq] at hd
      have hmem : e ∈ eventDates rs t := last?_mem hl
      rcases mem_eventDates.mp hmem with ⟨r, hmr, _⟩
      have hle : e ≤ lastDate rs := date_le_lastDate hs hmr
      omega

theorem daysSinceEvent_spec_w :
    (daysSinceEvent [((0 : ℤ), (-1 : ℚ)), (5, 2)] 0 = none
      ↔ eventDates [((0 : ℤ), (-1 : ℚ)), (5, 2)] 0 = [])
    ∧ (0 : ℤ) ≤ 5 :=
  ⟨(daysSinceEvent_spec [((0 : ℤ), (-1 : ℚ)), (5, 2)] 0).1,
    (daysSinceEvent_spec [((0 : ℤ), (-1 : ℚ)), (5, 2)] 0).2.2 (by decide) 5 (by decide)⟩

/-- C9: recency is monotone in the threshold: if the recency at a lower
threshold is defined, then at any threshold at least as large it is also
defined and no larger, because every event of the lower tier is an event of
the higher tier. -/
theorem recency_monotone (rs : List Row) (t1 t2 : ℚ) (hle : t1 ≤ t2)
    (hs : rs.Pairwise (fun a b => a.1 < b.1)) :
    ∀ d1 : ℤ, daysSinceEvent rs t1 = some d1 →
      ∃ d2 : ℤ, daysSinceEvent rs t2 = some d2 ∧ d2 ≤ d1 := by
  intro d1 h1
  unfold daysSinceEvent at h1
  cases hl : last? (eventDates rs t1) with
  | none => rw [hl] at h1; simp at h1
  | some e1 =>
    rw [hl] at h1
    simp only [Option.some.injEq] at h1
    have he1 : e1 ∈ eventDates rs t1 := last?_mem hl
    rcases mem_eventDates.mp he1 with ⟨r, hmr, hrt⟩
    have he1' : e1 ∈ eventDates rs t2 := mem_eventDates.mpr ⟨r, hmr, hrt.trans hle⟩
    have hne : eventDates rs t2 ≠ [] := List.ne_nil_of_mem he1'
    rcases last?_of_ne_nil hne with ⟨e2, hl2⟩
    have h12 : e1 ≤ e2 := eventDate_le_last_event hs he1' hl2
    exact ⟨lastDate rs - e2, daysSinceEvent_of_last hl2, by omega⟩

theorem recency_monotone_w :
    ∃ d2 : ℤ, daysSinceEvent [((0 : ℤ), (-2 : ℚ)), (1, 0)] 0 = some d2 ∧ d2 ≤ 1 :=
  recency_monotone [((0 : ℤ), (-2 : ℚ)), (1, 0)] (-2) 0 (by decide) (by decide) 1
    (by decide)

/-- C5: each threshold is the mean minus k sample standard deviations
(k = 1, 2, 3, `ddof = 1`), and since the standard deviation is non-negative
they satisfy moderate ≥ strong ≥ very strong. -/
theorem thresholds_ordered (rs : List Row) (h : rs ≠ []) :
    thMod rs = ((mean rs : ℚ) : ℝ) - sigma rs
    ∧ thStrong rs = ((mean rs : ℚ) : ℝ) - 2 * sigma rs
    ∧ thVeryStrong rs = ((mean rs : ℚ) : ℝ) - 3 * sigma rs
    ∧ thVeryStrong rs ≤ thStrong rs ∧ thStrong rs ≤ thMod rs := by
  have hσ : 0 ≤ sigma rs := Real.sqrt_nonneg _
  refine ⟨rfl, rfl, rfl, ?_, ?_⟩
  · unfold thVeryStrong thStrong
    linarith
  · unfold thStrong thMod
    linarith

theorem thresholds_ordered_w :
    thVeryStrong [((0 : ℤ), (1 : ℚ)), (1, 3)] ≤ thStrong [((0 : ℤ), (1 : ℚ)), (1, 3)]
    ∧ thStrong [((0 : ℤ), (1 : ℚ)), (1, 3)] ≤ thMod [((0 : ℤ), (1 : ℚ)), (1, 3)] :=
  ⟨(thresholds_ordered [((0 : ℤ), (1 : ℚ)), (1, 3)] (by decide)).2.2.2.1,
    (thresholds_ordered [((0 : ℤ), (1 : ℚ)), (1, 3)] (by decide)).2.2.2.2⟩

/-- C6: for one return series the event set at the very-strong threshold is
contained in the event set at the strong threshold, which is contained in the
event set at the moderate threshold; membership is the inclusive comparison
`return ≤ threshold`, and on a strictly increasing date index the detected
dates stay in ascending order. -/
theorem eventSets_nested (rs : List Row) :
    (eventDatesR rs (thVeryStrong rs) ⊆ eventDatesR rs (thStrong rs))
    ∧ (eventDatesR rs (thStrong rs) ⊆ eventDatesR rs (thMod rs))
    ∧ (∀ t : ℚ, ∀ d : ℤ, d ∈ eventDates rs t ↔ ∃ r : ℚ, (d, r) ∈ rs ∧ r ≤ t)
    ∧ (∀ t : ℚ, rs.Pairwise (fun a b => a.1 < b.1) →
        (eventDates rs t).Pairwise (· < ·)) := by
  have hσ : 0 ≤ sigma rs := Real.sqrt_nonneg _
  have h32 : thVeryStrong rs ≤ thStrong rs := by
    unfold thVeryStrong thStrong
    linarith
  have h21 : thStrong rs ≤ thMod rs := by
    unfold thStrong thMod
    linarith
  refine ⟨?_, ?_, ?_, ?_⟩
  · rintro d ⟨r, hmem, hle⟩
    exact ⟨r, hmem, hle.trans h32⟩
  · rintro d ⟨r, hmem, hle⟩
    exact ⟨r, hmem, hle.trans h21⟩
  · intro t d
    exact mem_eventDates
  · intro t hs
    exact eventDates_pairwise hs

theorem eventSets_nested_w :
    ((0 : ℤ) ∈ eventDates [((0 : ℤ), (-1 : ℚ)), (1, 2)] 0
      ↔ ∃ r : ℚ, ((0 : ℤ), r) ∈ [((0 : ℤ), (-1 : ℚ)), (1, 2)] ∧ r ≤ 0)
    ∧ (eventDates [((0 : ℤ), (-1 : ℚ)), (1, 2)] 0).Pairwise (· < ·) :=
  ⟨(eventSets_nested [((0 : ℤ), (-1 : ℚ)), (1, 2)]).2.2.1 0 0,
    (eventSets_nested [((0 : ℤ), (-1 : ℚ)), (1, 2)]).2.2.2 0 (by decide)⟩

lemma toReturns_length : ∀ ps : List (ℤ × ℚ), (toReturns ps).length = ps.length - 1
  | [] => rfl
  | [_] => rfl
  | p :: q :: l => by
    have ih := toReturns_length (q :: l)
    simp [toReturns] at ih ⊢
    omega

lemma toReturns_map_fst :
    ∀ ps : List (ℤ × ℚ), (toReturns ps).map Prod.fst = (ps.map Prod.fst).tail
  | [] => rfl
  | [_] => rfl
  | p :: q :: l => by
    have ih := toReturns_map_fst (q :: l)
    simp [toReturns] at ih ⊢
    exact ih

lemma toReturns_get? :
    ∀ ps : List (ℤ × ℚ), ∀ i : ℕ, ∀ a b : ℤ × ℚ,
      ps.get? i = some a → ps.get? (i + 1) = some b →
        (toReturns ps).get? i = some (b.1, b.2 / a.2 - 1)
  | [], i, a, b, ha, _ => by simp at ha
  | [_], i, a, b, _, hb => by
    cases i <;> simp at hb
  | p :: q :: l, 0, a, b, ha, hb => by
    simp at ha hb
    subst ha
    simp [toReturns, hb]
  | p :: q :: l, i + 1, a, b, ha, hb => by
    have ha' : (q :: l).get? i = some a := by simpa using ha
    have hb' : (q :: l).get? (i + 1) = some b := by simpa using hb
    have ih := toReturns_get? (q :: l) i a b ha' hb'
    simpa [toReturns] using ih

/-- C7: the return series derived from a price series is exactly one element
shorter, its dates are the price dates without the first one (so the first
price date carries no return, the `NaN` there being dropped rather than
imputed), and the i-th return is `price[i+1]/price[i] - 1` — a simple, not
log, return. -/
theorem toReturns_spec (ps : List (ℤ × ℚ)) :
    ((toReturns ps).length = ps.length - 1)
    ∧ ((toReturns ps).map Prod.fst = (ps.map Prod.fst).tail)
    ∧ (∀ i : ℕ, ∀ a b : ℤ × ℚ, ps.get? i = some a → ps.get? (i + 1) = some b →
        (toReturns ps).get? i = some (b.1, b.2 / a.2 - 1))
    ∧ (ps.Pairwise (fun a b => a.1 < b.1) → ∀ p : ℤ × ℚ, ps.head? = some p →
        p.1 ∉ (toReturns ps).map Prod.fst) := by
  refine ⟨toReturns_length ps, toReturns_map_fst ps, toReturns_get? ps, ?_⟩
  intro hs p hp hmem
  cases ps with
  | nil => simp at hp
  | cons a l =>
    have hpa : a = p := by simpa using hp
    rw [toReturns_map_fst] at hmem
    simp only [List.map_cons, List.tail_cons, List.mem_map] at hmem
    rcases hmem with ⟨q, hq, hq1⟩
    have hlt : a.1 < q.1 := (List.pairwise_cons.mp hs).1 q hq
    rw [← hpa] at hq1
    omega

theorem toReturns_spec_w :
    toReturns [((0 : ℤ), (2 : ℚ)), (1, 4)] ≠ []
    ∧ (0 : ℤ) ∉ (toReturns [((0 : ℤ), (2 : ℚ)), (1, 4)]).map Prod.fst := by
  have h := (toReturns_spec [((0 : ℤ), (2 : ℚ)), (1, 4)]).2.2.2 (by decide) (0, 2) rfl
  refine ⟨?_, h⟩
  intro hnil
  have hlen := (toReturns_spec [((0 : ℤ), (2 : ℚ)), (1, 4)]).1
  rw [hnil] at hlen
  simp at hlen

lemma mean_of_const {rs : List Row} {c : ℚ} (h1 : rs ≠ [])
    (h2 : ∀ p ∈ rs, p.2 = c) : mean rs = c := by
  have hx : ∀ x ∈ rs.map Prod.snd, x = c := by
    intro x hx
    rcases List.mem_map.mp hx with ⟨p, hp, rfl⟩
    exact h2 p hp
  have hn : ((rs.length : ℚ)) ≠ 0 := by
    have : 0 < rs.length := List.length_pos.mpr h1
    exact_mod_cast Nat.pos_iff_ne_zero.mp this
  unfold mean
  rw [sum_eq_length_mul hx, List.length_map]
  exact mul_div_cancel_left₀ c hn

lemma sampleVar_of_const {rs : List Row} {c : ℚ} (h1 : rs ≠ [])
    (h2 : ∀ p ∈ rs, p.2 = c) : sampleVar rs = 0 := by
  have hm := mean_of_const h1 h2
  have hx : ∀ x ∈ rs.map (fun p => (p.2 - mean rs) ^ 2), x = 0 := by
    intro x hx
    rcases List.mem_map.mp hx with ⟨p, hp, rfl⟩
    rw [h2 p hp, hm]
    ring
  unfold sampleVar
  rw [sum_eq_length_mul hx]
  simp

/-- C8: when all returns are identical the sample standard deviation is zero,
so all three thresholds equal the mean, and event detection at the mean flags
every date of the series (inclusive comparison); nothing in the computation
divides by the zero deviation. -/
theorem degenerate_sigma_zero (rs : List Row) (c : ℚ) (h1 : rs ≠ [])
    (h2 : ∀ p ∈ rs, p.2 = c) :
    thMod rs = ((mean rs : ℚ) : ℝ)
    ∧ thStrong rs = ((mean rs : ℚ) : ℝ)
    ∧ thVeryStrong rs = ((mean rs : ℚ) : ℝ)
    ∧ eventDates rs (mean rs) = rs.map Prod.fst := by
  have hv := sampleVar_of_const h1 h2
  have hs0 : sigma rs = 0 := by
    unfold sigma
    rw [hv]
    simp
  refine ⟨?_, ?_, ?_, ?_⟩
  · unfold thMod
    rw [hs0]
    ring
  · unfold thStrong
    rw [hs0]
    ring
  · unfold thVeryStrong
    rw [hs0]
    ring
  · unfold eventDates eventRows
    rw [List.filter_eq_self.mpr ?_]
    intro p hp
    rw [h2 p hp, mean_of_const h1 h2]
    simp

theorem degenerate_sigma_zero_w :
    thMod [((0 : ℤ), (3 : ℚ)), (1, 3)] = ((mean [((0 : ℤ), (3 : ℚ)), (1, 3)] : ℚ) : ℝ)
    ∧ eventDates [((0 : ℤ), (3 : ℚ)), (1, 3)] (mean [((0 : ℤ), (3 : ℚ)), (1, 3)])
      = [0, 1] :=
  ⟨(degenerate_sigma_zero [((0 : ℤ), (3 : ℚ)), (1, 3)] 3 (by decide) (by decide)).1,
    (degenerate_sigma_zero [((0 : ℤ), (3 : ℚ)), (1, 3)] 3 (by decide) (by decide)).2.2.2⟩

end ReturnsApp

namespace ScratchTests

open ReturnsApp

example : daysSinceEvent [((0 : ℤ), (-1 : ℚ)), (5, 2)] 0 = some 5 := by decide

example : daysSinceEvent [((0 : ℤ), (1 : ℚ)), (5, 2)] 0 = none := by decide

example : probPositiveAfterDrop [((0 : ℤ), (-1 : ℚ)), (1, 2), (2, -1)] 0 = (some 1, 1) := by
  norm_num [probPositiveAfterDrop, qualRows, eventRows, lastDate, lastD, last?, isPosNext,
    nextAfter, List.filter]

example : toReturns [((0 : ℤ), (2 : ℚ)), (1, 3), (2, 6)] = [(1, 1/2), (2, 1)] := by
  norm_num [toReturns]

example : classifyRegime (some 10) none = RegimeLabel.high_risk := by decide

example : classifyRegime (some 40) (some 20) = RegimeLabel.elevated := by decide

example : classifyRegime none none = RegimeLabel.stable := by decide

example : mean [((0 : ℤ), (1 : ℚ)), (1, 3)] = 2 := by norm_num [mean]

example : sampleVar [((0 : ℤ), (1 : ℚ)), (1, 3)] = 2 := by norm_num [sampleVar, mean]

end ScratchTests
